import Mathlib

/-!
Shallow embedding of `verlet.ipynb`: a chain of coupled harmonic
oscillators integrated with the Verlet, forward-Euler and backward-Euler
schemes, together with the energy diagnostics of the notebook.  Machine
floats are modelled by exact rational arithmetic; the real numbers appear
only in the step-count formula, which involves π.
-/

namespace VerletNb

open Matrix

/-- State of one simulation: the pair `(q, p)` of position and momentum
vectors, mutated in place by the loop body. -/
abbrev State (n : ℕ) := (Fin n → ℚ) × (Fin n → ℚ)

/-- Code: `kinetic_energy(p) = 0.5 * np.sum(p**2)`. -/
def kinetic_energy {n : ℕ} (p : Fin n → ℚ) : ℚ := (1 / 2) * ∑ i, p i ^ 2

/-- Code: `velocity(p) = p`. -/
def velocity {n : ℕ} (p : Fin n → ℚ) : Fin n → ℚ := p

/-- Code: `diag = np.ones(n); diag[0] = 0`. -/
def diagvec (n : ℕ) : Fin n → ℚ := fun i => if (i : ℕ) = 0 then 0 else 1

/-- Code: `D = scipy.sparse.diags([diag, -np.ones(n - 1)], [0, -1])`:
the vector `diag` on the main diagonal and `-1` on the first
subdiagonal (entries `(i, i - 1)`). -/
def D (n : ℕ) : Matrix (Fin n) (Fin n) ℚ :=
  Matrix.of fun i j =>
    if (i : ℕ) = (j : ℕ) then diagvec n i
    else if (i : ℕ) = (j : ℕ) + 1 then -1 else 0

/-- Code: `Λ = scipy.sparse.diags([np.ones(n)], [0])`, all-ones diagonal. -/
def Λ (n : ℕ) : Matrix (Fin n) (Fin n) ℚ :=
  Matrix.of fun i j => if (i : ℕ) = (j : ℕ) then 1 else 0

/-- Code: `L = D.T * Λ * D`, the stiffness operator. -/
def L (n : ℕ) : Matrix (Fin n) (Fin n) ℚ := (D n)ᵀ * Λ n * D n

/-- Code: `potential_energy(q) = 0.5 * np.dot(L * q, q)`. -/
def potential_energy {n : ℕ} (q : Fin n → ℚ) : ℚ :=
  (1 / 2) * dotProduct (L n *ᵥ q) q

/-- Code: `potential_gradient(q) = L * q`. -/
def potential_gradient {n : ℕ} (q : Fin n → ℚ) : Fin n → ℚ := L n *ᵥ q

/-- Loop body for the Verlet scheme, with the three sequential in-place
updates of the notebook made explicit:
`q += δt/2 * velocity(p); p -= δt * potential_gradient(q); q += δt/2 * velocity(p)`. -/
def verlet_step (n : ℕ) (δt : ℚ) (s : State n) : State n :=
  let q1 := s.1 + (δt / 2) • velocity s.2
  let p1 := s.2 - δt • potential_gradient q1
  let q2 := q1 + (δt / 2) • velocity p1
  (q2, p1)

/-- Loop body for the forward-Euler scheme:
`qk = q_feuler.copy(); q_feuler += δt * velocity(p_feuler); p_feuler -= δt * potential_gradient(qk)`. -/
def feuler_step (n : ℕ) (δt : ℚ) (s : State n) : State n :=
  let qk := s.1
  let q1 := s.1 + δt • velocity s.2
  let p1 := s.2 - δt • potential_gradient qk
  (q1, p1)

/-- Exact linear solve by Cramer's rule, modelling
`scipy.sparse.linalg.spsolve`: returns the solution of `A x = b` whenever
`A` is invertible. -/
def solve {n : ℕ} (A : Matrix (Fin n) (Fin n) ℚ) (b : Fin n → ℚ) : Fin n → ℚ :=
  (A.det)⁻¹ • (A.adjugate *ᵥ b)

/-- Loop body for the backward-Euler scheme:
`pk = p_beuler.copy();`
`p_beuler = spsolve(eye(n) + δt**2 * L, pk - δt * L * q_beuler);`
`q_beuler += δt * p_beuler`. -/
def beuler_step (n : ℕ) (δt : ℚ) (s : State n) : State n :=
  let pk := s.2
  let p1 := solve (1 + δt ^ 2 • L n) (pk - δt • (L n *ᵥ s.1))
  let q1 := s.1 + δt • p1
  (q1, p1)

/-- Total energy recorded at each step of the loop:
`kinetic_energy(p) + potential_energy(q)`. -/
def energy {n : ℕ} (s : State n) : ℚ := kinetic_energy s.2 + potential_energy s.1

/-! ### Basic facts about the operator -/

/-- The matrix `Λ` of the notebook is the identity. -/
lemma Λ_eq_one (n : ℕ) : Λ n = 1 := by
  ext i j
  simp only [Λ, Matrix.of_apply, Matrix.one_apply, Fin.val_eq_val]

/-- With `Λ = I`, the stiffness matrix is `Dᵀ * D`. -/
lemma L_eq (n : ℕ) : L n = (D n)ᵀ * D n := by
  rw [L, Λ_eq_one, mul_one]

/-- Sum of squares is non-negative. -/
lemma dot_self_nonneg {n : ℕ} (x : Fin n → ℚ) : 0 ≤ dotProduct x x := by
  have h : dotProduct x x = ∑ i, x i * x i := rfl
  rw [h]
  exact Finset.sum_nonneg fun i _ => mul_self_nonneg _

/-- Quadratic form of the stiffness matrix: `⟨x, L y⟩ = ⟨D x, D y⟩`. -/
lemma dot_L_mulVec {n : ℕ} (x y : Fin n → ℚ) :
    dotProduct x (L n *ᵥ y) = dotProduct (D n *ᵥ x) (D n *ᵥ y) := by
  rw [L_eq, ← Matrix.mulVec_mulVec, Matrix.dotProduct_mulVec, Matrix.vecMul_transpose]

/-- The stiffness matrix is symmetric as a bilinear form. -/
lemma dot_L_symm {n : ℕ} (x y : Fin n → ℚ) :
    dotProduct x (L n *ᵥ y) = dotProduct y (L n *ᵥ x) := by
  rw [dot_L_mulVec, dot_L_mulVec, dotProduct_comm]

/-- The coefficient matrix `I + δt²·L` of the implicit step has non-zero
determinant: its quadratic form is positive definite. -/
lemma beuler_matrix_det_ne_zero (n : ℕ) (δt : ℚ) :
    (1 + δt ^ 2 • L n).det ≠ 0 := by
  intro hdet
  obtain ⟨v, hv, hv0⟩ := (Matrix.exists_mulVec_eq_zero_iff).mpr hdet
  have hq : dotProduct v ((1 + δt ^ 2 • L n) *ᵥ v) =
      dotProduct v v + δt ^ 2 * dotProduct (D n *ᵥ v) (D n *ᵥ v) := by
    rw [Matrix.add_mulVec, Matrix.one_mulVec, Matrix.smul_mulVec_assoc,
      dotProduct_add, dotProduct_smul, smul_eq_mul, dot_L_mulVec]
  rw [hv0, dotProduct_zero] at hq
  have h1 : dotProduct v v = 0 := by
    nlinarith [dot_self_nonneg v, dot_self_nonneg (D n *ᵥ v), sq_nonneg δt]
  exact hv (dotProduct_self_eq_zero.mp h1)

/-- Correctness of the Cramer-rule solve: if `det A ≠ 0` then
`A *ᵥ solve A b = b`. -/
lemma solve_correct {n : ℕ} (A : Matrix (Fin n) (Fin n) ℚ) (b : Fin n → ℚ)
    (hA : A.det ≠ 0) : A *ᵥ solve A b = b := by
  unfold solve
  rw [Matrix.mulVec_smul, Matrix.mulVec_mulVec, Matrix.mul_adjugate,
    Matrix.smul_mulVec_assoc, Matrix.one_mulVec, smul_smul,
    inv_mul_cancel₀ hA, one_smul]

/-- The pair returned by the backward-Euler loop body satisfies the
implicit-Euler defining equations. -/
lemma beuler_step_eqs (n : ℕ) (δt : ℚ) (q p : Fin n → ℚ) :
    (beuler_step n δt (q, p)).1 = q + δt • (beuler_step n δt (q, p)).2 ∧
    (beuler_step n δt (q, p)).2 = p - δt • (L n *ᵥ (beuler_step n δt (q, p)).1) := by
  refine ⟨rfl, ?_⟩
  have hs : (1 + δt ^ 2 • L n) *ᵥ solve (1 + δt ^ 2 • L n) (p - δt • (L n *ᵥ q)) =
      p - δt • (L n *ᵥ q) :=
    solve_correct _ _ (beuler_matrix_det_ne_zero n δt)
  set p1 := solve (1 + δt ^ 2 • L n) (p - δt • (L n *ᵥ q)) with hp1
  rw [Matrix.add_mulVec, Matrix.one_mulVec, Matrix.smul_mulVec_assoc] at hs
  show p1 = p - δt • (L n *ᵥ (q + δt • p1))
  rw [Matrix.mulVec_add, Matrix.mulVec_smul, smul_add, smul_smul, ← sq]
  have h3 : p1 = (p - δt • (L n *ᵥ q)) - δt ^ 2 • (L n *ᵥ p1) :=
    eq_sub_of_add_eq hs
  calc p1 = (p - δt • (L n *ᵥ q)) - δt ^ 2 • (L n *ᵥ p1) := h3
    _ = p - (δt • (L n *ᵥ q) + δt ^ 2 • (L n *ᵥ p1)) := by abel

/-- Kinetic energy as a dot product. -/
lemma ke_eq {n : ℕ} (p : Fin n → ℚ) : kinetic_energy p = (1 / 2) * dotProduct p p := by
  unfold kinetic_energy dotProduct
  congr 1
  exact Finset.sum_congr rfl fun i _ => pow_two (p i)

/-- Total energy as dot products. -/
lemma energy_eq {n : ℕ} (q p : Fin n → ℚ) :
    energy (q, p) = (1 / 2) * dotProduct p p + (1 / 2) * dotProduct (L n *ᵥ q) q := by
  have h : energy (q, p) = kinetic_energy p + potential_energy q := rfl
  rw [h, ke_eq]
  unfold potential_energy
  rfl

/-- Energy balance of one forward-Euler step: the energy gain is
`δt²/2·(|L q|² + |D p|²)`, which is non-negative. -/
lemma feuler_energy_gain (n : ℕ) (δt : ℚ) (q p : Fin n → ℚ) :
    energy (feuler_step n δt (q, p)) = energy (q, p) +
      δt ^ 2 / 2 * (dotProduct (L n *ᵥ q) (L n *ᵥ q) +
        dotProduct (D n *ᵥ p) (D n *ᵥ p)) := by
  have hstep : feuler_step n δt (q, p) = (q + δt • p, p - δt • (L n *ᵥ q)) := rfl
  rw [hstep, energy_eq, energy_eq]
  have hg : L n *ᵥ (q + δt • p) = L n *ᵥ q + δt • (L n *ᵥ p) := by
    rw [Matrix.mulVec_add, Matrix.mulVec_smul]
  rw [hg]
  simp only [sub_dotProduct, dotProduct_sub, add_dotProduct, dotProduct_add,
    smul_dotProduct, dotProduct_smul, smul_eq_mul]
  have e1 : dotProduct (L n *ᵥ q) p = dotProduct p (L n *ᵥ q) := dotProduct_comm _ _
  have e2 : dotProduct (L n *ᵥ p) q = dotProduct p (L n *ᵥ q) := by
    rw [dotProduct_comm, dot_L_symm]
  have e3 : dotProduct (L n *ᵥ p) p = dotProduct (D n *ᵥ p) (D n *ᵥ p) := by
    rw [dotProduct_comm, dot_L_mulVec]
  rw [e1, e2, e3]
  ring

/-- One backward-Euler step is undone by one forward-Euler step with the
opposite time step. -/
lemma beuler_inverse (n : ℕ) (δt : ℚ) (q p : Fin n → ℚ) :
    feuler_step n (-δt) (beuler_step n δt (q, p)) = (q, p) := by
  obtain ⟨h1, h2⟩ := beuler_step_eqs n δt q p
  have hf : feuler_step n (-δt) (beuler_step n δt (q, p)) =
      ((beuler_step n δt (q, p)).1 + (-δt) • (beuler_step n δt (q, p)).2,
       (beuler_step n δt (q, p)).2 -
         (-δt) • (L n *ᵥ (beuler_step n δt (q, p)).1)) := rfl
  rw [hf]
  refine Prod.ext ?_ ?_
  · show (beuler_step n δt (q, p)).1 + (-δt) • (beuler_step n δt (q, p)).2 = q
    rw [h1, neg_smul]
    module
  · show (beuler_step n δt (q, p)).2 -
        (-δt) • (L n *ᵥ (beuler_step n δt (q, p)).1) = p
    rw [h2, neg_smul]
    module

/-! ### Claims C1, C2, C3, C4, C5, C10 -/

/-- C2 (amended): in exact arithmetic, for every state `(q, p)` and every
`δt > 0`, the total energy `kineticEnergy(p) + potentialEnergy(q)` does
not decrease under one forward-Euler step and does not increase under one
backward-Euler step, so the respective energy trajectories are
non-decreasing and non-increasing.  (The strict versions fail: a fixed
point such as the all-zero state keeps its energy constant.) -/
theorem c2_euler_energy_monotone (n : ℕ) (δt : ℚ) (q p : Fin n → ℚ)
    (h : 0 < δt) :
    energy (q, p) ≤ energy (feuler_step n δt (q, p)) ∧
    energy (beuler_step n δt (q, p)) ≤ energy (q, p) := by
  constructor
  · rw [feuler_energy_gain]
    nlinarith [dot_self_nonneg (L n *ᵥ q), dot_self_nonneg (D n *ᵥ p), sq_nonneg δt]
  · have hgain := feuler_energy_gain n (-δt) (beuler_step n δt (q, p)).1
      (beuler_step n δt (q, p)).2
    rw [show ((beuler_step n δt (q, p)).1, (beuler_step n δt (q, p)).2) =
        beuler_step n δt (q, p) from rfl, beuler_inverse n δt q p, neg_sq] at hgain
    nlinarith [dot_self_nonneg (L n *ᵥ (beuler_step n δt (q, p)).1),
      dot_self_nonneg (D n *ᵥ (beuler_step n δt (q, p)).2), sq_nonneg δt]

/-- Witness for C2 at `n = 2`, `δt = 1`, `q = p = 0`. -/
theorem c2_euler_energy_monotone_witness :
    (0 : ℚ) < 1 ∧
    (energy (((fun _ => 0), (fun _ => 0)) : State 2) ≤
        energy (feuler_step 2 1 ((fun _ => 0), (fun _ => 0))) ∧
      energy (beuler_step 2 1 ((fun _ => 0), (fun _ => 0))) ≤
        energy (((fun _ => 0), (fun _ => 0)) : State 2)) :=
  ⟨by norm_num, c2_euler_energy_monotone 2 1 (fun _ => 0) (fun _ => 0) (by norm_num)⟩

/-- The all-zero state is a fixed point of the forward-Euler step. -/
lemma feuler_fixed_zero (n : ℕ) (δt : ℚ) :
    feuler_step n δt ((0 : Fin n → ℚ), (0 : Fin n → ℚ)) = (0, 0) := by
  have hstep : feuler_step n δt ((0 : Fin n → ℚ), (0 : Fin n → ℚ)) =
      (0 + δt • (0 : Fin n → ℚ), 0 - δt • (L n *ᵥ (0 : Fin n → ℚ))) := rfl
  rw [hstep, Matrix.mulVec_zero, smul_zero, add_zero, sub_zero]

/-- The all-zero state is a fixed point of the backward-Euler step. -/
lemma beuler_fixed_zero (n : ℕ) (δt : ℚ) :
    beuler_step n δt ((0 : Fin n → ℚ), (0 : Fin n → ℚ)) = (0, 0) := by
  have hstep : beuler_step n δt ((0 : Fin n → ℚ), (0 : Fin n → ℚ)) =
      (0 + δt • solve (1 + δt ^ 2 • L n) (0 - δt • (L n *ᵥ (0 : Fin n → ℚ))),
       solve (1 + δt ^ 2 • L n) (0 - δt • (L n *ᵥ (0 : Fin n → ℚ)))) := rfl
  have hsolve : solve (1 + δt ^ 2 • L n) ((0 : Fin n → ℚ) - δt • (L n *ᵥ 0)) = 0 := by
    unfold solve
    rw [Matrix.mulVec_zero, smul_zero, sub_zero, Matrix.mulVec_zero, smul_zero]
  rw [hstep, hsolve, smul_zero, add_zero]

/-- Counterexample to C2 as stated: at `n = 2`, `δt = 1 > 0` and the
all-zero state, one forward-Euler step and one backward-Euler step leave
the energy exactly unchanged, so neither energy trajectory is strictly
monotone over the horizon. -/
theorem c2_counterexample :
    (0 : ℚ) < 1 ∧
    energy (feuler_step 2 1 ((0 : Fin 2 → ℚ), (0 : Fin 2 → ℚ))) =
      energy (((0 : Fin 2 → ℚ), (0 : Fin 2 → ℚ)) : State 2) ∧
    energy (beuler_step 2 1 ((0 : Fin 2 → ℚ), (0 : Fin 2 → ℚ))) =
      energy (((0 : Fin 2 → ℚ), (0 : Fin 2 → ℚ)) : State 2) := by
  refine ⟨by norm_num, ?_, ?_⟩
  · rw [feuler_fixed_zero]
  · rw [beuler_fixed_zero]

/-- C3: for every `(q_old, p_old)` and `δt`, the pair returned by the
backward-Euler closed-form update with the linear solve,
`p_new = (I + δt²·L)⁻¹·(p_old − δt·L·q_old)`, `q_new = q_old + δt·p_new`,
satisfies the implicit-Euler defining equations
`q_new = q_old + δt·p_new` and `p_new = p_old − δt·L·q_new`. -/
theorem c3_beuler_solve_satisfies_implicit_eqs (n : ℕ) (δt : ℚ) (q p : Fin n → ℚ) :
    (beuler_step n δt (q, p)).1 = q + δt • (beuler_step n δt (q, p)).2 ∧
    (beuler_step n δt (q, p)).2 =
      p - δt • potential_gradient (beuler_step n δt (q, p)).1 :=
  beuler_step_eqs n δt q p

/-- C1: for every state `(q, p)` and every `δt`, one Verlet step computes
`q_half = q + (δt/2)·velocity(p)`, then `p_new = p − δt·potentialGradient(q_half)`
(the momentum kick uses the half-updated position), then
`q_new = q_half + (δt/2)·velocity(p_new)`, and returns exactly the pair
`(q_new, p_new)` of this three-stage composition. -/
theorem c1_verlet_step_three_stage (n : ℕ) (δt : ℚ) (q p : Fin n → ℚ) :
    verlet_step n δt (q, p) =
      ((q + (δt / 2) • velocity p) +
         (δt / 2) • velocity (p - δt • potential_gradient (q + (δt / 2) • velocity p)),
       p - δt • potential_gradient (q + (δt / 2) • velocity p)) := rfl

/-- C4: for every state `(q, p)` and every `δt`, one forward-Euler step
returns `q_new = q + δt·velocity(p)` computed from the old `p` and
`p_new = p − δt·potentialGradient(q)` computed from the old `q` (the value
snapshotted before the in-place position update). -/
theorem c4_feuler_step_uses_old_state (n : ℕ) (δt : ℚ) (q p : Fin n → ℚ) :
    feuler_step n δt (q, p) =
      (q + δt • velocity p, p - δt • potential_gradient q) := rfl

/-- C5: the stiffness operator is built as `L = Dᵀ·D` (since `Λ` is the
identity), where `D` carries 1s on the main diagonal except entry `(0,0)`
and `−1`s on the subdiagonal; in particular for `n = 2` the built `L`
equals `[[1, −1], [−1, 1]]`. -/
theorem c5_stiffness_construction (n : ℕ) :
    L n = (D n)ᵀ * D n ∧ L 2 = Matrix.of ![![1, -1], ![-1, 1]] := by
  refine ⟨L_eq n, ?_⟩
  rw [L_eq]
  ext i j
  fin_cases i <;> fin_cases j <;>
    simp [Matrix.mul_apply, D, diagvec, Fin.sum_univ_two]

/-- C10: a single Verlet step is exactly time-reversible: applying the
Verlet step with time step `−δt` to the output of the Verlet step with
time step `δt` returns exactly the original state `(q, p)`, in exact
arithmetic. -/
theorem c10_verlet_step_reversible (n : ℕ) (δt : ℚ) (q p : Fin n → ℚ) :
    verlet_step n (-δt) (verlet_step n δt (q, p)) = (q, p) := by
  simp only [verlet_step, velocity, potential_gradient]
  have hneg : (-δt) / 2 = -(δt / 2) := by ring
  refine Prod.ext ?_ ?_ <;>
    simp only [hneg, neg_smul, Matrix.mulVec_add, Matrix.mulVec_sub,
      Matrix.mulVec_neg, Matrix.mulVec_smul] <;>
    module

/-! ### The simulation loop -/

/-- The three integration schemes of the notebook. -/
inductive Integrator
  | verlet
  | feuler
  | beuler

/-- Loop body of each scheme. -/
def Integrator.step : Integrator → (n : ℕ) → ℚ → State n → State n
  | .verlet, n, δt => verlet_step n δt
  | .feuler, n, δt => feuler_step n δt
  | .beuler, n, δt => beuler_step n δt

/-- Recursive form of the integration loop for one scheme: advance the
state, record the energy of the new state, repeat. -/
def run_aux {n : ℕ} (step : State n → State n) : State n → ℕ → List ℚ
  | _, 0 => []
  | s, k + 1 => energy (step s) :: run_aux step (step s) k

/-- Code: `for k in range(num_steps): <advance q, p>; energy[k] =
kinetic_energy(p) + potential_energy(q)`, producing one scheme's energy
trajectory. -/
def run {n : ℕ} (step : State n → State n) (s : State n) (numSteps : ℕ) : List ℚ :=
  run_aux step s numSteps

/-- The trajectory has one entry per loop iteration. -/
lemma run_aux_length {n : ℕ} (step : State n → State n) (N : ℕ) :
    ∀ s, (run_aux step s N).length = N := by
  induction N with
  | zero => intro s; rfl
  | succ N ih => intro s; simp only [run_aux, List.length_cons, ih]

/-- Entry `k` of the trajectory is the energy of the state after `k + 1`
applications of the loop body. -/
lemma run_aux_getD {n : ℕ} (step : State n → State n) (N : ℕ) :
    ∀ (s : State n) (k : ℕ), k < N →
      (run_aux step s N).getD k 0 = energy (step^[k + 1] s) := by
  induction N with
  | zero => intro s k hk; exact absurd hk (Nat.not_lt_zero k)
  | succ N ih =>
    intro s k hk
    cases k with
    | zero => simp [run_aux, Function.iterate_one]
    | succ k =>
      have hk' : k < N := Nat.lt_of_succ_lt_succ hk
      simp only [run_aux, List.getD_cons_succ]
      rw [ih (step s) k hk']
      conv_rhs => rw [Function.iterate_succ_apply]

/-! ### Diagnostics -/

/-- Failure kind of the diagnostics: numpy's `max`/`min` reduction of an
empty array fails. -/
inductive DiagErr
  | emptyTrajectory

/-- Code: `(np.max(e) - np.min(e)) / np.mean(e)`, the printed
conservation metric; the reductions fail on an empty trajectory, and the
mean is divided by without any check. -/
def conservationError (t : List ℚ) : Except DiagErr ℚ :=
  match t with
  | [] => .error .emptyTrajectory
  | x :: xs =>
    .ok ((xs.foldl max x - xs.foldl min x) /
      ((x :: xs).sum / ((x :: xs).length : ℚ)))

/-- The running maximum is an element of the list. -/
lemma foldl_max_mem : ∀ (xs : List ℚ) (x : ℚ), xs.foldl max x ∈ x :: xs := by
  intro xs
  induction xs with
  | nil => intro x; simp [List.foldl]
  | cons y ys ih =>
    intro x
    have h := ih (max x y)
    simp only [List.foldl_cons]
    rcases List.mem_cons.mp h with h1 | h1
    · rcases max_choice x y with hc | hc
      · rw [h1, hc]; exact List.mem_cons_self _ _
      · rw [h1, hc]; exact List.mem_cons_of_mem _ (List.mem_cons_self _ _)
    · exact List.mem_cons_of_mem _ (List.mem_cons_of_mem _ h1)

/-- The running maximum bounds every element of the list. -/
lemma le_foldl_max : ∀ (xs : List ℚ) (x y : ℚ), y ∈ x :: xs → y ≤ xs.foldl max x := by
  intro xs
  induction xs with
  | nil =>
    intro x y hy
    have h : y = x := by simpa using hy
    simp [h, List.foldl]
  | cons z zs ih =>
    intro x y hy
    simp only [List.foldl_cons]
    have hbase : max x z ≤ zs.foldl max (max x z) :=
      ih (max x z) (max x z) (List.mem_cons_self _ _)
    rcases List.mem_cons.mp hy with h1 | h1
    · rw [h1]; exact le_trans (le_max_left x z) hbase
    · rcases List.mem_cons.mp h1 with h2 | h2
      · rw [h2]; exact le_trans (le_max_right x z) hbase
      · exact ih (max x z) y (List.mem_cons_of_mem _ h2)

/-- The running minimum is an element of the list. -/
lemma foldl_min_mem : ∀ (xs : List ℚ) (x : ℚ), xs.foldl min x ∈ x :: xs := by
  intro xs
  induction xs with
  | nil => intro x; simp [List.foldl]
  | cons y ys ih =>
    intro x
    have h := ih (min x y)
    simp only [List.foldl_cons]
    rcases List.mem_cons.mp h with h1 | h1
    · rcases min_choice x y with hc | hc
      · rw [h1, hc]; exact List.mem_cons_self _ _
      · rw [h1, hc]; exact List.mem_cons_of_mem _ (List.mem_cons_self _ _)
    · exact List.mem_cons_of_mem _ (List.mem_cons_of_mem _ h1)

/-- The running minimum is below every element of the list. -/
lemma foldl_min_le : ∀ (xs : List ℚ) (x y : ℚ), y ∈ x :: xs → xs.foldl min x ≤ y := by
  intro xs
  induction xs with
  | nil =>
    intro x y hy
    have h : y = x := by simpa using hy
    simp [h, List.foldl]
  | cons z zs ih =>
    intro x y hy
    simp only [List.foldl_cons]
    have hbase : zs.foldl min (min x z) ≤ min x z :=
      ih (min x z) (min x z) (List.mem_cons_self _ _)
    rcases List.mem_cons.mp hy with h1 | h1
    · rw [h1]; exact le_trans hbase (min_le_left x z)
    · rcases List.mem_cons.mp h1 with h2 | h2
      · rw [h2]; exact le_trans hbase (min_le_right x z)
      · exact ih (min x z) y (List.mem_cons_of_mem _ h2)

/-! ### Step count -/

/-- Python `int(x)`: truncation toward zero. -/
noncomputable def pyInt (x : ℝ) : ℤ := if 0 ≤ x then ⌊x⌋ else ⌈x⌉

/-- Code: `num_steps = int(2 * np.pi / δt)`. -/
noncomputable def num_steps (δt : ℝ) : ℤ := pyInt (2 * Real.pi / δt)

/-! ### Claims C6, C7, C9 -/

/-- C6: for every initial state, `δt`, `numSteps` and integrator, the run
produces a trajectory of length exactly `numSteps` whose entry at each
index `k < numSteps` is `kineticEnergy(p) + potentialEnergy(q)` of the
state after `k + 1` integrator steps: the state is advanced first and the
energy recorded afterwards. -/
theorem c6_run_records_energy_after_step (n : ℕ) (m : Integrator) (δt : ℚ)
    (s0 : State n) (numSteps k : ℕ) (hk : k < numSteps) :
    (run (m.step n δt) s0 numSteps).length = numSteps ∧
    (run (m.step n δt) s0 numSteps).getD k 0 =
      energy ((m.step n δt)^[k + 1] s0) :=
  ⟨run_aux_length _ _ _, run_aux_getD _ _ _ _ hk⟩

/-- Witness for C6 at `n = 2`, the Verlet scheme, `δt = 1`, the zero
initial state, one step, index 0. -/
theorem c6_run_records_energy_after_step_witness :
    0 < 1 ∧
    ((run (Integrator.verlet.step 2 1) ((0 : Fin 2 → ℚ), (0 : Fin 2 → ℚ)) 1).length = 1 ∧
     (run (Integrator.verlet.step 2 1) ((0 : Fin 2 → ℚ), (0 : Fin 2 → ℚ)) 1).getD 0 0 =
       energy ((Integrator.verlet.step 2 1)^[0 + 1] ((0 : Fin 2 → ℚ), (0 : Fin 2 → ℚ)))) :=
  ⟨Nat.zero_lt_one,
    c6_run_records_energy_after_step 2 Integrator.verlet 1 (0, 0) 1 0 Nat.zero_lt_one⟩

/-- C7 (amended): the diagnostics value on a non-empty trajectory is
`(max − min) / mean` where max and min are genuinely the greatest and the
least element; on the empty trajectory it fails with `EmptyTrajectory`.
(No `DegenerateMean` check exists: a zero mean is divided by regardless.) -/
theorem c7_conservation_error_spec (x : ℚ) (xs : List ℚ) :
    conservationError [] = Except.error DiagErr.emptyTrajectory ∧
    ∃ M m, M ∈ x :: xs ∧ (∀ y ∈ x :: xs, y ≤ M) ∧
      m ∈ x :: xs ∧ (∀ y ∈ x :: xs, m ≤ y) ∧
      conservationError (x :: xs) =
        Except.ok ((M - m) / ((x :: xs).sum / ((x :: xs).length : ℚ))) :=
  ⟨rfl, xs.foldl max x, xs.foldl min x, foldl_max_mem xs x,
    fun y hy => le_foldl_max xs x y hy, foldl_min_mem xs x,
    fun y hy => foldl_min_le xs x y hy, rfl⟩

/-- Counterexample to C7 as stated: the trajectory `[1, −1]` has mean
exactly 0, yet the diagnostics returns an ordinary value instead of
failing with `DegenerateMean` — the code divides by the mean unchecked. -/
theorem c7_counterexample :
    (([1, -1] : List ℚ).sum / ((([1, -1] : List ℚ).length : ℕ) : ℚ) = 0) ∧
    ∃ v, conservationError [1, -1] = Except.ok v := by
  constructor
  · norm_num
  · exact ⟨_, rfl⟩

/-- C9 (amended): when `numSteps` is not overridden it is derived from
the time step as `numSteps = ⌊2π/δt⌋` (`int` truncates; for positive
arguments this is the floor, not rounding to nearest), for every
`δt > 0`. -/
theorem c9_num_steps_truncates (δt : ℝ) (h : 0 < δt) :
    num_steps δt = ⌊2 * Real.pi / δt⌋ := by
  unfold num_steps pyInt
  rw [if_pos]
  exact div_nonneg (by positivity) h.le

/-- Witness for C9 at `δt = π`. -/
theorem c9_num_steps_truncates_witness :
    (0 : ℝ) < Real.pi ∧ num_steps Real.pi = ⌊2 * Real.pi / Real.pi⌋ :=
  ⟨Real.pi_pos, c9_num_steps_truncates Real.pi Real.pi_pos⟩

/-- Counterexample to C9 as stated: at `δt = 20π/69 > 0` we have
`2π/δt = 6.9`, the code computes `int(6.9) = 6`, but rounding to the
nearest integer gives 7. -/
theorem c9_counterexample :
    0 < 20 * Real.pi / 69 ∧
    num_steps (20 * Real.pi / 69) ≠ round (2 * Real.pi / (20 * Real.pi / 69)) := by
  have hπ := Real.pi_pos
  have hne : Real.pi ≠ 0 := ne_of_gt hπ
  have hx : 2 * Real.pi / (20 * Real.pi / 69) = 69 / 10 := by
    field_simp
    ring
  constructor
  · positivity
  · unfold num_steps pyInt
    rw [hx, if_pos (by norm_num)]
    have hfl : ⌊(69 / 10 : ℝ)⌋ = 6 := by
      rw [Int.floor_eq_iff] <;> norm_num
    have hrd : round ((69 : ℝ) / 10) = 7 := by
      rw [round_eq]
      have h1 : (69 : ℝ) / 10 + 1 / 2 = 74 / 10 := by norm_num
      rw [h1, Int.floor_eq_iff] <;> norm_num
    rw [hfl, hrd]
    norm_num

end VerletNb
